/-
Verification of the similarity-transform engine of the arcgis-coord-transform
repository: a shallow embedding of `tools/transform.py` (the `Transform` entity,
the `calculate_transform` estimator, the `calculate_errors` analyzer and the
`save`/`load` serialization) and of the DMS angle helper `dms_degrees` in
`tools/utils.py`, over exact arithmetic (ℚ for the angle parser, ℝ for the
numerical engine).
-/
import Mathlib

namespace CoordTransform

/-! ### Angle parser: `dms_degrees` (tools/utils.py, lines 78-114)

Python floats are modelled by exact rationals; Python's `int()` conversion
truncates toward zero. -/

/-- Python `int(q)`: truncation toward zero. -/
def pyint (q : ℚ) : ℤ := if q < 0 then ⌈q⌉ else ⌊q⌋

/-- The three input shapes accepted by `dms_degrees`: a single packed value of
the form `DDD.MMSSssss...`, a `(deg, min)` pair, or a `(deg, min, sec)` triple. -/
inductive DMSInput where
  | packed (v : ℚ)
  | pair (d m : ℚ)
  | triple (d m s : ℚ)

/-- Range checks and final conversion shared by all input shapes
(utils.py lines 102-114). -/
def dmsCheck (deg min sec : ℚ) : Except String ℚ :=
  if min < 0 ∨ sec < 0 then .error "Negative min/sec value"
  else if 60 ≤ min ∨ 60 ≤ sec then .error "Bad min/sec value"
  else if deg ≠ (pyint deg : ℚ) ∨ min ≠ (pyint min : ℚ) then .error "Non-integer deg/min"
  else
    .ok (if deg < 0 then deg - (min / 60 + sec / 3600) else deg + (min / 60 + sec / 3600))

/-- Shallow embedding of `dms_degrees` (utils.py lines 78-114).  The packed-float
case splits the value into integer degrees, two minute digits and the rest as
seconds; the two-component case turns the fractional part of the minutes into
seconds; then all cases run the shared checks. -/
def dms_degrees : DMSInput → Except String ℚ
  | .packed v =>
      let deg : ℤ := pyint v
      let dms : ℚ := |v - (deg : ℚ)| * 100
      let mins : ℤ := pyint dms
      let secs : ℚ := (dms - (mins : ℚ)) * 100
      dmsCheck (deg : ℚ) (mins : ℚ) secs
  | .pair d m =>
      let secs : ℚ := (m - (pyint m : ℚ)) * 60
      let mins : ℤ := pyint m
      dmsCheck d (mins : ℚ) secs
  | .triple d m s => dmsCheck d m s

/-- The minutes component of an input, as supplied (for component inputs) or as
decoded from the packed digits (utils.py lines 84-97). -/
def minutesOf : DMSInput → ℚ
  | .packed v => (pyint (|v - (pyint v : ℚ)| * 100) : ℚ)
  | .pair _ m => m
  | .triple _ m _ => m

/-- The seconds component of an input: as supplied for a triple, as derived from
the fractional minutes for a pair, and as decoded digits for a packed value. -/
def secondsOf : DMSInput → ℚ
  | .packed v =>
      let dms : ℚ := |v - (pyint v : ℚ)| * 100
      (dms - (pyint dms : ℚ)) * 100
  | .pair _ m => (m - (pyint m : ℚ)) * 60
  | .triple _ _ s => s

end CoordTransform

namespace CoordTransform

noncomputable section

open Matrix

/-! ### The `Transform` entity (transform.py lines 14-87) -/

/-- A 4-parameter similarity transform: rotation/scale matrix `R` and
translation `t` (transform.py lines 43-45, defaults `np.identity(2)` and
`np.zeros(2)`). -/
structure Transform where
  R : Matrix (Fin 2) (Fin 2) ℝ := 1
  t : Fin 2 → ℝ := 0

/-- Forward transform: `t + R·pt` (transform.py lines 64-67). -/
def Transform.forward (xfm : Transform) (pt : Fin 2 → ℝ) : Fin 2 → ℝ :=
  xfm.t + xfm.R.mulVec pt

/-- Inverse transform: `R⁻¹·(pt - t)` (transform.py lines 69-72). -/
def Transform.inverse (xfm : Transform) (pt : Fin 2 → ℝ) : Fin 2 → ℝ :=
  (xfm.R)⁻¹.mulVec (pt - xfm.t)

/-- The similarity structure of the rotation/scale matrix:
`R = [[a1, -b1], [b1, a1]]`. -/
def similarityStructured (R : Matrix (Fin 2) (Fin 2) ℝ) : Prop :=
  R 1 1 = R 0 0 ∧ R 0 1 = -(R 1 0)

/-- The rotation/scale matrix `numpy.array([[a1, -b1], [b1, a1]])` built from
the two parameters, the form the code uses at transform.py lines 38, 86, 164
and 221. -/
def simMatrix (a1 b1 : ℝ) : Matrix (Fin 2) (Fin 2) ℝ := !![a1, -b1; b1, a1]

/-! ### Serialization (transform.py lines 74-87)

The text file written by `np.savetxt` is modelled as its list of `'# '`-prefixed
header lines plus its list of data lines, each data line holding the numbers
printed on it.  `np.savetxt` receives the 1-D length-4 array
`hstack((t, R[:,0]))` and therefore writes it as a column: one value per line.
`np.loadtxt` skips the comment lines and returns the data values in order. -/

/-- A saved parameter file: comment lines and data lines. -/
structure SavedFile where
  headerLines : List String
  dataLines : List (List ℝ)

/-- Shallow embedding of `Transform.save` (transform.py lines 74-81): the
two-line header (plus the trailing empty comment from the final newline), then
`np.savetxt` of the 1-D array `[a0, b0, a1, b1]`, one value per data line. -/
def Transform.save (xfm : Transform) (now : String) : SavedFile :=
  { headerLines :=
      [ "# Similarity transform paramerters a0, b0, a1, b1"
      , "# Created " ++ now
      , "# " ]
  , dataLines := [[xfm.t 0], [xfm.t 1], [xfm.R 0 0], [xfm.R 1 0]] }

/-- Shallow embedding of `Transform.load` (transform.py lines 83-87):
`np.loadtxt` ignores comment lines and yields the data values, which are
unpacked as `a0, b0, a1, b1`; `R` and `t` are rebuilt from them. -/
def Transform.load (f : SavedFile) : Except String Transform :=
  match f.dataLines.flatten with
  | [a0, b0, a1, b1] => .ok ⟨simMatrix a1 b1, ![a0, b0]⟩
  | _ => .error "could not unpack four values"

/-! ### The estimator `calculate_transform` (transform.py lines 90-237) -/

/-- A displacement link `('name', (x0, y0), (x1, y1))`. -/
structure Link where
  name : String
  src : Fin 2 → ℝ
  dst : Fin 2 → ℝ

/-- Errors the estimator can signal: the failed `assert` statements, the
`MirroredTransformError` of transform.py lines 10-11 and 179-180, and numpy's
`LinAlgError` raised by `npla.inv` on a singular normal matrix. -/
inductive CTError where
  | assertionError
  | mirroredTransformError
  | singularMatrixError
  deriving DecidableEq

/-- Check `assert len(weights) == n` (transform.py line 140); vacuous when no
weights are given. -/
def weightsLenOk (links : List Link) (weights : Option (List (String × ℝ))) : Bool :=
  match weights with
  | none => true
  | some ws => ws.length == links.length

/-- The weight vector: `np.ones(n)` when `weights is None`, else the second
components `w[1]` of the given pairs (transform.py lines 137-141). -/
def weightVec (links : List Link) (weights : Option (List (String × ℝ)))
    (k : Fin links.length) : ℝ :=
  match weights with
  | none => 1
  | some ws => (ws.map Prod.snd).getD k.1 0

/-- The source points of the links as an indexed family (transform.py line 146). -/
def srcPt (links : List Link) (k : Fin links.length) : Fin 2 → ℝ := (links.get k).src

/-- The destination points of the links (transform.py line 147). -/
def dstPt (links : List Link) (k : Fin links.length) : Fin 2 → ℝ := (links.get k).dst

/-- Weighted centroid `np.average(pts, weights=w, axis=0)`
(transform.py lines 150-151): `Σ wᵢ·ptᵢ / Σ wᵢ` componentwise. -/
def centroid {n : ℕ} (w : Fin n → ℝ) (p : Fin n → Fin 2 → ℝ) : Fin 2 → ℝ :=
  fun a => (∑ k, w k * p k a) / (∑ k, w k)

/-- Degrees to radians, `math.radians`. -/
def radians (d : ℝ) : ℝ := d * Real.pi / 180

/-- The rotation/scale matrix built from an angle in degrees and a scale factor
(transform.py lines 162-164): `a1 = cos(radians r)·s`, `b1 = sin(radians r)·s`,
`R = [[a1, -b1], [b1, a1]]`. -/
def rotMatrix (rotate scale : ℝ) : Matrix (Fin 2) (Fin 2) ℝ :=
  simMatrix (Real.cos (radians rotate) * scale) (Real.sin (radians rotate) * scale)

/-- The Rotate/Scale/Translate branch (transform.py lines 153-165): defaults
`rotate = 0.0`, `scale = 1.0`, then `t = centroid_dst - R·centroid_src`. -/
def rstBranch (links : List Link) (weights : Option (List (String × ℝ)))
    (rotate scale : Option ℝ) : Transform × String :=
  let w := weightVec links weights
  let cs := centroid w (srcPt links)
  let cd := centroid w (dstPt links)
  let R := rotMatrix (rotate.getD 0) (scale.getD 1)
  (⟨R, cd - R.mulVec cs⟩, "Rotate/Scale/Translate")

/-- The output of `npla.svd` on a 2×2 matrix: factors `U`, singular values `S`
and `Vt`.  The numerical library call is modelled as an oracle producing such a
triple; theorems about the SVD branch assume the oracle output is a genuine
singular value decomposition of its argument. -/
structure SVDResult where
  U : Matrix (Fin 2) (Fin 2) ℝ
  S : Fin 2 → ℝ
  Vt : Matrix (Fin 2) (Fin 2) ℝ

/-- The contract of `npla.svd`: orthogonal factors, non-negative singular
values, and `H = U · diag(S) · Vt`. -/
def IsSVD (H : Matrix (Fin 2) (Fin 2) ℝ) (r : SVDResult) : Prop :=
  r.U.transpose * r.U = 1 ∧ r.Vt * r.Vt.transpose = 1 ∧ (∀ i, 0 ≤ r.S i) ∧
    H = r.U * Matrix.diagonal r.S * r.Vt

/-- The weighted cross-covariance of the centered point sets
(transform.py lines 171-175): `H = srcᵀ·diag(w)·dst` after centering both sides
on their weighted centroids. -/
def crossCov (links : List Link) (weights : Option (List (String × ℝ))) :
    Matrix (Fin 2) (Fin 2) ℝ :=
  let w := weightVec links weights
  let cs := centroid w (srcPt links)
  let cd := centroid w (dstPt links)
  Matrix.of fun a b => ∑ k, (srcPt links k a - cs a) * w k * (dstPt links k b - cd b)

/-- The SVD branch (transform.py lines 167-183): `Rot = Vᵗᵀ·Uᵀ`; fail with
`MirroredTransformError` when `det(Rot) < 0`, else scale `Rot` and translate by
centroids. -/
def svdBranch (svd : Matrix (Fin 2) (Fin 2) ℝ → SVDResult) (links : List Link)
    (weights : Option (List (String × ℝ))) (scale : ℝ) :
    Except CTError (Transform × String) :=
  let w := weightVec links weights
  let cs := centroid w (srcPt links)
  let cd := centroid w (dstPt links)
  let res := svd (crossCov links weights)
  let Rot := res.Vt.transpose * res.U.transpose
  if Rot.det < 0 then .error .mirroredTransformError
  else
    let R := scale • Rot
    .ok (⟨R, cd - R.mulVec cs⟩, "SVD")

/-- Row index `i` of the stacked 2n×4 system belongs to link `i / 2`. -/
def halfIdx {n : ℕ} (i : Fin (2 * n)) : Fin n :=
  ⟨i.1 / 2, by have := i.isLt; omega⟩

/-- The design matrix `A` of the Conformal branch (transform.py lines 201-203):
row `2k` is `[1, 0, xₖ, -yₖ]` and row `2k+1` is `[0, 1, yₖ, xₖ]`. -/
def designA (links : List Link) : Matrix (Fin (2 * links.length)) (Fin 4) ℝ :=
  Matrix.of fun i j =>
    let p := srcPt links (halfIdx i)
    if i.1 % 2 = 0 then ![1, 0, p 0, -(p 1)] j else ![0, 1, p 1, p 0] j

/-- The weighting matrix `W = diag(weights.repeat(2))` (transform.py line 206). -/
def weightDiag (links : List Link) (weights : Option (List (String × ℝ))) :
    Matrix (Fin (2 * links.length)) (Fin (2 * links.length)) ℝ :=
  Matrix.diagonal fun i => weightVec links weights (halfIdx i)

/-- The observation vector `b = dst.reshape(2n)` (transform.py line 209). -/
def obsVec (links : List Link) (i : Fin (2 * links.length)) : ℝ :=
  if i.1 % 2 = 0 then dstPt links (halfIdx i) 0 else dstPt links (halfIdx i) 1

/-- The normal matrix `Aᵀ·W·A` of the weighted least-squares system. -/
def normalMat (links : List Link) (weights : Option (List (String × ℝ))) :
    Matrix (Fin 4) (Fin 4) ℝ :=
  (designA links).transpose * weightDiag links weights * designA links

/-- The weighted normal-equations solution
`x = inv(Aᵀ·W·A) · Aᵀ·W·b` (transform.py line 218). -/
def conformalX (links : List Link) (weights : Option (List (String × ℝ))) :
    Fin 4 → ℝ :=
  (normalMat links weights)⁻¹.mulVec
    (((designA links).transpose * weightDiag links weights).mulVec (obsVec links))

/-- The Conformal branch (transform.py lines 185-222): solve the weighted
normal equations for `[a0, b0, a1, b1]`; `npla.inv` raises on a singular normal
matrix. -/
def conformalBranch (links : List Link) (weights : Option (List (String × ℝ))) :
    Except CTError (Transform × String) :=
  if (normalMat links weights).det ≠ 0 then
    .ok (⟨simMatrix (conformalX links weights 2) (conformalX links weights 3),
          ![conformalX links weights 0, conformalX links weights 1]⟩, "Conformal")
  else .error .singularMatrixError

/-- Shallow embedding of `calculate_transform` (transform.py lines 90-237).
The `svd` argument is the oracle standing for `npla.svd`.  Strategy selection:
single link or explicit rotation → Rotate/Scale/Translate; else scale given →
SVD; else Conformal. -/
def calculate_transform (svd : Matrix (Fin 2) (Fin 2) ℝ → SVDResult)
    (links : List Link) (weights : Option (List (String × ℝ)))
    (rotate scale : Option ℝ) : Except CTError (Transform × String) :=
  if links.length = 0 then .error .assertionError
  else if ¬ weightsLenOk links weights then .error .assertionError
  else if links.length = 1 ∨ rotate.isSome then .ok (rstBranch links weights rotate scale)
  else
    match scale with
    | some s => svdBranch svd links weights s
    | none => conformalBranch links weights

/-! ### The error analyzer `calculate_errors` (transform.py lines 240-250) -/

/-- Residual distance of one link: the Euclidean norm
`sqrt(d₀² + d₁²)` of `forward(src) - dst` (transform.py lines 246-247). -/
def linkError (xfm : Transform) (l : Link) : ℝ :=
  Real.sqrt ((xfm.forward l.src 0 - l.dst 0) ^ 2 + (xfm.forward l.src 1 - l.dst 1) ^ 2)

/-- Shallow embedding of `calculate_errors`: the list `zip(names, errs)` in link
order and `rms = sqrt(mean(errs²))`. -/
def calculate_errors (xfm : Transform) (links : List Link) :
    List (String × ℝ) × ℝ :=
  let errs := links.map (linkError xfm)
  ((links.map Link.name).zip errs,
    Real.sqrt ((errs.map fun e => e ^ 2).sum / errs.length))

/-- Euclidean distance between two planar points, as the specification uses the
term ("Euclidean norm of the residual vector"). -/
def euclideanDist (p q : Fin 2 → ℝ) : ℝ :=
  Real.sqrt ((p 0 - q 0) ^ 2 + (p 1 - q 1) ^ 2)

/-- The pairing of link index and row parity with rows of the stacked system:
`(k, r) ↦ 2k + r`. -/
def pairIdx (n : ℕ) : Fin n × Fin 2 ≃ Fin (2 * n) where
  toFun p := ⟨2 * p.1.1 + p.2.1, by have := p.1.isLt; have := p.2.isLt; omega⟩
  invFun i := (halfIdx i, ⟨i.1 % 2, by omega⟩)
  left_inv p := by
    obtain ⟨⟨k, hk⟩, ⟨r, hr⟩⟩ := p
    have h1 : (2 * k + r) / 2 = k := by omega
    have h2 : (2 * k + r) % 2 = r := by omega
    simp only [halfIdx, Prod.mk.injEq, Fin.mk.injEq]
    exact ⟨h1, h2⟩
  right_inv i := by
    apply Fin.ext
    simp only [halfIdx]
    omega

end

/-! ### Lemmas about the angle parser -/

theorem pyint_intCast (d : ℤ) : pyint (d : ℚ) = d := by
  unfold pyint
  split <;> simp

theorem pyint_of_nonneg {q : ℚ} (h : 0 ≤ q) : pyint q = ⌊q⌋ :=
  if_neg (not_lt.2 h)

theorem dmsCheck_error (deg min sec : ℚ)
    (h : min < 0 ∨ sec < 0 ∨ 60 ≤ min ∨ 60 ≤ sec) :
    ∃ e, dmsCheck deg min sec = .error e := by
  unfold dmsCheck
  by_cases h1 : min < 0 ∨ sec < 0
  · rw [if_pos h1]
    exact ⟨_, rfl⟩
  · have h2 : 60 ≤ min ∨ 60 ≤ sec := by tauto
    rw [if_neg h1, if_pos h2]
    exact ⟨_, rfl⟩

theorem dmsCheck_ok (d m : ℤ) (s : ℚ) (hm0 : 0 ≤ m) (hm : m < 60)
    (hs0 : 0 ≤ s) (hs : s < 60) :
    dmsCheck (d : ℚ) (m : ℚ) s
      = .ok (if (d : ℚ) < 0 then (d : ℚ) - ((m : ℚ) / 60 + s / 3600)
             else (d : ℚ) + ((m : ℚ) / 60 + s / 3600)) := by
  unfold dmsCheck
  have h1 : ¬((m : ℚ) < 0 ∨ s < 0) := by
    push_neg
    exact ⟨by exact_mod_cast hm0, hs0⟩
  have h2 : ¬(60 ≤ (m : ℚ) ∨ 60 ≤ s) := by
    push_neg
    exact ⟨by exact_mod_cast hm, hs⟩
  have h3 : ¬((d : ℚ) ≠ (pyint (d : ℚ) : ℚ) ∨ (m : ℚ) ≠ (pyint (m : ℚ) : ℚ)) := by
    push_neg
    rw [pyint_intCast, pyint_intCast]
    exact ⟨rfl, rfl⟩
  rw [if_neg h1, if_neg h2, if_neg h3]

theorem dms_degrees_pair (d m : ℚ) :
    dms_degrees (.pair d m)
      = dmsCheck d (pyint m : ℚ) ((m - (pyint m : ℚ)) * 60) := rfl

theorem dms_degrees_triple (d m s : ℚ) :
    dms_degrees (.triple d m s) = dmsCheck d m s := rfl

theorem dms_degrees_packed (v : ℚ) :
    dms_degrees (.packed v)
      = dmsCheck (pyint v : ℚ) (minutesOf (.packed v)) (secondsOf (.packed v)) := rfl

/-- Claim C7: a three-component input with integer degrees and minutes and all
components in range converts to `deg ± (min/60 + sec/3600)` with the sign taken
from the degrees; and any input whose minutes or seconds component is negative
or at least 60 fails with a `ValueError` (the spec's `InvalidAngle`). -/
theorem claim7 :
    (∀ (d m : ℤ) (s : ℚ), 0 ≤ m → m < 60 → 0 ≤ s → s < 60 →
        dms_degrees (.triple (d : ℚ) (m : ℚ) s)
          = .ok (if (d : ℚ) < 0 then (d : ℚ) - ((m : ℚ) / 60 + s / 3600)
                 else (d : ℚ) + ((m : ℚ) / 60 + s / 3600)))
  ∧ (∀ x : DMSInput,
        minutesOf x < 0 ∨ 60 ≤ minutesOf x ∨ secondsOf x < 0 ∨ 60 ≤ secondsOf x →
        ∃ e, dms_degrees x = .error e) := by
  constructor
  · intro d m s hm0 hm hs0 hs
    rw [dms_degrees_triple]
    exact dmsCheck_ok d m s hm0 hm hs0 hs
  · intro x h
    match x with
    | .triple d m s =>
        rw [dms_degrees_triple]
        refine dmsCheck_error d m s ?_
        simp only [minutesOf, secondsOf] at h
        tauto
    | .pair d m =>
        rw [dms_degrees_pair]
        apply dmsCheck_error
        simp only [minutesOf, secondsOf] at h
        rcases h with hm | hm | hs | hs
        · -- supplied minutes negative
          by_cases hp : (pyint m : ℚ) < 0
          · exact Or.inl hp
          · push_neg at hp
            refine Or.inr (Or.inl ?_)
            have : m - (pyint m : ℚ) < 0 := by linarith
            nlinarith
        · -- supplied minutes at least 60
          refine Or.inr (Or.inr (Or.inl ?_))
          have h0 : (0 : ℚ) ≤ m := by linarith
          rw [pyint_of_nonneg h0]
          have : (60 : ℤ) ≤ ⌊m⌋ := Int.le_floor.2 (by exact_mod_cast hm)
          exact_mod_cast this
        · exact Or.inr (Or.inl hs)
        · exact Or.inr (Or.inr (Or.inr hs))
    | .packed v =>
        rw [dms_degrees_packed]
        apply dmsCheck_error
        set dms : ℚ := |v - (pyint v : ℚ)| * 100 with hdms
        have hd0 : 0 ≤ dms := by positivity
        have hmin : minutesOf (.packed v) = (⌊dms⌋ : ℚ) := by
          simp only [minutesOf, ← hdms, pyint_of_nonneg hd0]
        have hsec : secondsOf (.packed v) = (dms - (⌊dms⌋ : ℚ)) * 100 := by
          simp only [secondsOf, ← hdms, pyint_of_nonneg hd0]
        have hmin0 : 0 ≤ minutesOf (.packed v) := by
          rw [hmin]
          exact_mod_cast Int.floor_nonneg.2 hd0
        have hsec0 : 0 ≤ secondsOf (.packed v) := by
          rw [hsec]
          have := Int.fract_nonneg dms
          rw [Int.fract] at this
          nlinarith
        rcases h with hm | hm | hs | hs
        · exact absurd hm (not_lt.2 hmin0)
        · exact Or.inr (Or.inr (Or.inl hm))
        · exact absurd hs (not_lt.2 hsec0)
        · exact Or.inr (Or.inr (Or.inr hs))

theorem claim7_witness :
    ((0 : ℤ) ≤ 6 ∧ (6 : ℤ) < 60 ∧ (0 : ℚ) ≤ 27 ∧ (27 : ℚ) < 60)
  ∧ dms_degrees (.triple (-1) 6 27) = .ok (-(443 / 400))
  ∧ (60 ≤ minutesOf (.pair 123 (241 / 4))
       ∧ ∃ e, dms_degrees (.pair 123 (241 / 4)) = .error e) := by
  refine ⟨by norm_num, ?_, by norm_num [minutesOf], ?_⟩
  · have h := claim7.1 (-1) 6 27 (by norm_num) (by norm_num) (by norm_num) (by norm_num)
    rw [show ((-1 : ℤ) : ℚ) = -1 by norm_num, show ((6 : ℤ) : ℚ) = 6 by norm_num] at h
    rw [h]
    norm_num
  · exact claim7.2 (.pair 123 (241 / 4)) (by norm_num [minutesOf])

/-- Counterexample to claim C8: the two-component input `(123, 45.5)` has a
non-integer minutes value, yet `dms_degrees` accepts it and returns
`123 + 45/60 + 30/3600 = 14851/120` instead of failing. -/
theorem claim8_counterexample :
    dms_degrees (.pair 123 (91 / 2)) = .ok (14851 / 120)
      ∧ ∀ e, dms_degrees (.pair 123 (91 / 2)) ≠ .error e := by
  have h : dms_degrees (.pair 123 (91 / 2)) = .ok (14851 / 120) := by
    rw [dms_degrees_pair]
    norm_num [pyint, dmsCheck]
  exact ⟨h, fun e hc => by rw [h] at hc; exact Except.noConfusion hc⟩

/-- Claim C8 as amended: in a two-component input the DEGREES value must be an
exact integer (a non-integer degrees value always fails), while a fractional
minutes value is accepted: its fractional part is converted to seconds
(`sec = frac·60`, minutes truncated), so for integer `d` and `0 ≤ m < 60` the
parser returns `d - m/60` when `d < 0` and `d + m/60` otherwise. -/
theorem claim8_amended :
    (∀ d m : ℚ, d ≠ (pyint d : ℚ) → ∃ e, dms_degrees (.pair d m) = .error e)
  ∧ (∀ (d : ℤ) (m : ℚ), 0 ≤ m → m < 60 →
      dms_degrees (.pair (d : ℚ) m)
        = .ok (if (d : ℚ) < 0 then (d : ℚ) - m / 60 else (d : ℚ) + m / 60)) := by
  constructor
  · intro d m hd
    rw [dms_degrees_pair]
    unfold dmsCheck
    by_cases h1 : (pyint m : ℚ) < 0 ∨ (m - (pyint m : ℚ)) * 60 < 0
    · rw [if_pos h1]
      exact ⟨_, rfl⟩
    · by_cases h2 : 60 ≤ (pyint m : ℚ) ∨ 60 ≤ (m - (pyint m : ℚ)) * 60
      · rw [if_neg h1, if_pos h2]
        exact ⟨_, rfl⟩
      · rw [if_neg h1, if_neg h2, if_pos (Or.inl hd)]
        exact ⟨_, rfl⟩
  · intro d m hm0 hm
    rw [dms_degrees_pair, pyint_of_nonneg hm0]
    have hsec0 : 0 ≤ (m - (⌊m⌋ : ℚ)) * 60 := by
      have := Int.fract_nonneg m
      rw [Int.fract] at this
      nlinarith
    have hsec : (m - (⌊m⌋ : ℚ)) * 60 < 60 := by
      have := Int.fract_lt_one m
      rw [Int.fract] at this
      nlinarith
    have h := dmsCheck_ok d ⌊m⌋ ((m - (⌊m⌋ : ℚ)) * 60)
      (Int.floor_nonneg.2 hm0) (Int.floor_lt.2 (by exact_mod_cast hm)) hsec0 hsec
    rw [h]
    have hdec : (⌊m⌋ : ℚ) / 60 + (m - (⌊m⌋ : ℚ)) * 60 / 3600 = m / 60 := by ring
    rw [hdec]

theorem claim8_amended_witness :
    ((1 : ℚ) / 2 ≠ (pyint ((1 : ℚ) / 2) : ℚ)
       ∧ ∃ e, dms_degrees (.pair (1 / 2) 0) = .error e)
  ∧ ((0 : ℚ) ≤ 3 / 2 ∧ (3 / 2 : ℚ) < 60
       ∧ dms_degrees (.pair 7 (3 / 2)) = .ok (281 / 40)) := by
  have hd : (1 : ℚ) / 2 ≠ (pyint ((1 : ℚ) / 2) : ℚ) := by norm_num [pyint]
  refine ⟨⟨hd, claim8_amended.1 (1 / 2) 0 hd⟩, by norm_num, by norm_num, ?_⟩
  have h := claim8_amended.2 7 (3 / 2) (by norm_num) (by norm_num)
  rw [show ((7 : ℤ) : ℚ) = 7 by norm_num] at h
  rw [h]
  norm_num

/-! ### Serialization claims -/

/-- Claim C5 (code bug): `save` writes the four parameters as FOUR data lines of
one value each, since `np.savetxt` receives the 1-D array `hstack((t, R[:,0]))`
and writes it as a column — contradicting the code's own comment
(transform.py line 76) and the claimed single data line with all four values. -/
theorem claim5 (xfm : Transform) (now : String) :
    (xfm.save now).dataLines = [[xfm.t 0], [xfm.t 1], [xfm.R 0 0], [xfm.R 1 0]]
      ∧ (xfm.save now).dataLines.length = 4
      ∧ ∀ line ∈ (xfm.save now).dataLines, line.length = 1 := by
  refine ⟨rfl, rfl, ?_⟩
  intro line hl
  simp only [Transform.save, List.mem_cons, List.not_mem_nil, or_false] at hl
  rcases hl with h | h | h | h <;> subst h <;> rfl

theorem claim5_witness :
    (Transform.save ⟨1, ![5, -4]⟩ "ts").dataLines.length = 4
      ∧ ∀ line ∈ (Transform.save ⟨1, ![5, -4]⟩ "ts").dataLines, line.length = 1 :=
  ⟨(claim5 ⟨1, ![5, -4]⟩ "ts").2.1, (claim5 ⟨1, ![5, -4]⟩ "ts").2.2⟩

/-- Claim C6: loading the file saved from a valid (similarity-structured)
transform reconstructs a transform whose forward and inverse maps agree with
the original on every point (exactly, in the real-number model, hence within
any tolerance). -/
theorem claim6 (xfm : Transform) (now : String)
    (hsim : similarityStructured xfm.R) :
    ∃ T, Transform.load (xfm.save now) = .ok T
      ∧ (∀ p, T.forward p = xfm.forward p) ∧ (∀ p, T.inverse p = xfm.inverse p) := by
  have hload : Transform.load (xfm.save now)
      = .ok ⟨simMatrix (xfm.R 0 0) (xfm.R 1 0), ![xfm.t 0, xfm.t 1]⟩ := rfl
  obtain ⟨h1, h2⟩ := hsim
  have hR : simMatrix (xfm.R 0 0) (xfm.R 1 0) = xfm.R := by
    ext i j
    fin_cases i <;> fin_cases j <;>
      simp [simMatrix, Matrix.cons_val_zero, Matrix.cons_val_one, Matrix.head_cons, h1, h2]
  have ht : ![xfm.t 0, xfm.t 1] = xfm.t := by
    funext i
    fin_cases i <;> rfl
  rw [hR, ht] at hload
  exact ⟨xfm, hload, fun p => rfl, fun p => rfl⟩

theorem claim6_witness :
    similarityStructured (Transform.mk !![1, -2; 2, 1] ![3, 4]).R
      ∧ ∃ T, Transform.load (Transform.save ⟨!![1, -2; 2, 1], ![3, 4]⟩ "now") = .ok T
          ∧ (∀ p, T.forward p = Transform.forward ⟨!![1, -2; 2, 1], ![3, 4]⟩ p)
          ∧ (∀ p, T.inverse p = Transform.inverse ⟨!![1, -2; 2, 1], ![3, 4]⟩ p) := by
  have hs : similarityStructured (Transform.mk !![1, -2; 2, 1] ![3, 4]).R := by
    constructor <;> norm_num [Matrix.cons_val_zero, Matrix.cons_val_one, Matrix.head_cons]
  exact ⟨hs, claim6 ⟨!![1, -2; 2, 1], ![3, 4]⟩ "now" hs⟩

/-! ### Error-analyzer claim -/

/-- Claim C9: `calculate_errors` returns one `(name, error)` pair per link, in
link order, each error being the Euclidean distance between the forward image
of the source and the target, and the RMS is the square root of the mean of the
squared per-link errors. -/
theorem claim9 (xfm : Transform) (links : List Link) (_hne : links ≠ []) :
    (calculate_errors xfm links).1
        = links.map (fun l => (l.name, euclideanDist (xfm.forward l.src) l.dst))
      ∧ (calculate_errors xfm links).2
        = Real.sqrt
            ((links.map (fun l => euclideanDist (xfm.forward l.src) l.dst ^ 2)).sum
              / links.length) := by
  constructor
  · simp only [calculate_errors]
    rw [List.zip_map']
    rfl
  · simp only [calculate_errors, List.map_map, List.length_map]
    rfl

theorem claim9_witness :
    ([⟨"a", ![0, 0], ![3, 0]⟩, ⟨"b", ![0, 0], ![0, 4]⟩] : List Link) ≠ []
      ∧ (calculate_errors ⟨1, 0⟩ [⟨"a", ![0, 0], ![3, 0]⟩, ⟨"b", ![0, 0], ![0, 4]⟩]).1
          = [("a", 3), ("b", 4)]
      ∧ (calculate_errors ⟨1, 0⟩ [⟨"a", ![0, 0], ![3, 0]⟩, ⟨"b", ![0, 0], ![0, 4]⟩]).2
          = Real.sqrt ((3 ^ 2 + 4 ^ 2) / 2) := by
  have hne : ([⟨"a", ![0, 0], ![3, 0]⟩, ⟨"b", ![0, 0], ![0, 4]⟩] : List Link) ≠ [] := by
    simp
  have h := claim9 ⟨1, 0⟩ [⟨"a", ![0, 0], ![3, 0]⟩, ⟨"b", ![0, 0], ![0, 4]⟩] hne
  have e1 : euclideanDist (Transform.forward ⟨1, 0⟩ ![0, 0]) ![3, 0] = 3 := by
    unfold euclideanDist Transform.forward
    norm_num [Matrix.one_mulVec]
    rw [show (9 : ℝ) = 3 ^ 2 by norm_num, Real.sqrt_sq (by norm_num : (0 : ℝ) ≤ 3)]
  have e2 : euclideanDist (Transform.forward ⟨1, 0⟩ ![0, 0]) ![0, 4] = 4 := by
    unfold euclideanDist Transform.forward
    norm_num [Matrix.one_mulVec]
    rw [show (16 : ℝ) = 4 ^ 2 by norm_num, Real.sqrt_sq (by norm_num : (0 : ℝ) ≤ 4)]
  refine ⟨hne, ?_, ?_⟩
  · rw [h.1]
    simp only [List.map_cons, List.map_nil]
    rw [e1, e2]
  · rw [h.2]
    simp only [List.map_cons, List.map_nil, List.sum_cons, List.sum_nil, List.length_cons,
      List.length_nil]
    rw [e1, e2]
    norm_num

/-! ### Lemmas about the estimator -/

theorem sum_fin_two_mul {n : ℕ} (g : Fin (2 * n) → ℝ) :
    ∑ i, g i = ∑ k : Fin n, (g (pairIdx n (k, 0)) + g (pairIdx n (k, 1))) := by
  have h := Equiv.sum_comp (pairIdx n) g
  rw [← h, Fintype.sum_prod_type]
  simp [Fin.sum_univ_two]

theorem pairIdx_even_val {n : ℕ} (k : Fin n) : (pairIdx n (k, 0)).1 = 2 * k.1 := rfl

theorem pairIdx_odd_val {n : ℕ} (k : Fin n) : (pairIdx n (k, 1)).1 = 2 * k.1 + 1 := rfl

theorem halfIdx_pairIdx {n : ℕ} (k : Fin n) (r : Fin 2) :
    halfIdx (pairIdx n (k, r)) = k :=
  congrArg Prod.fst ((pairIdx n).left_inv (k, r))

theorem designA_apply_even (links : List Link) (k : Fin links.length) (j : Fin 4) :
    designA links (pairIdx links.length (k, 0)) j
      = ![1, 0, srcPt links k 0, -(srcPt links k 1)] j := by
  simp only [designA, Matrix.of_apply]
  rw [if_pos (by rw [pairIdx_even_val]; omega), halfIdx_pairIdx]

theorem designA_apply_odd (links : List Link) (k : Fin links.length) (j : Fin 4) :
    designA links (pairIdx links.length (k, 1)) j
      = ![0, 1, srcPt links k 1, srcPt links k 0] j := by
  simp only [designA, Matrix.of_apply]
  rw [if_neg (by rw [pairIdx_odd_val]; omega), halfIdx_pairIdx]

theorem obsVec_even (links : List Link) (k : Fin links.length) :
    obsVec links (pairIdx links.length (k, 0)) = dstPt links k 0 := by
  unfold obsVec
  rw [if_pos (by rw [pairIdx_even_val]; omega), halfIdx_pairIdx]

theorem obsVec_odd (links : List Link) (k : Fin links.length) :
    obsVec links (pairIdx links.length (k, 1)) = dstPt links k 1 := by
  unfold obsVec
  rw [if_neg (by rw [pairIdx_odd_val]; omega), halfIdx_pairIdx]

theorem weightVec_pos (links : List Link) (weights : Option (List (String × ℝ)))
    (hlen : weightsLenOk links weights = true)
    (hpos : ∀ ws, weights = some ws → ∀ p ∈ ws, 0 < p.2) (k : Fin links.length) :
    0 < weightVec links weights k := by
  match weights with
  | none => exact one_pos
  | some ws =>
      have hl : ws.length = links.length := by
        simpa [weightsLenOk] using hlen
      have hk : k.1 < (ws.map Prod.snd).length := by
        simp [hl, k.isLt]
      show 0 < (ws.map Prod.snd).getD k.1 0
      rw [List.getD_eq_getElem _ _ hk]
      simp only [List.getElem_map]
      exact hpos ws rfl _ (List.getElem_mem _)

theorem weightSum_pos (links : List Link) (weights : Option (List (String × ℝ)))
    (hne : links ≠ []) (hlen : weightsLenOk links weights = true)
    (hpos : ∀ ws, weights = some ws → ∀ p ∈ ws, 0 < p.2) :
    0 < ∑ k, weightVec links weights k := by
  haveI : Nonempty (Fin links.length) := by
    refine ⟨⟨0, ?_⟩⟩
    cases links with
    | nil => exact absurd rfl hne
    | cons a l => simp
  exact Finset.sum_pos (fun k _ => weightVec_pos links weights hlen hpos k)
    Finset.univ_nonempty

theorem simMatrix_structured (a1 b1 : ℝ) : similarityStructured (simMatrix a1 b1) :=
  ⟨rfl, rfl⟩

theorem orth2_structured (Q : Matrix (Fin 2) (Fin 2) ℝ)
    (h : Q.transpose * Q = 1) (hdet : 0 ≤ Q.det) : similarityStructured Q := by
  have hent := fun i j => congrFun (congrFun h i) j
  have e1 : Q 0 0 * Q 0 0 + Q 1 0 * Q 1 0 = 1 := by
    have := hent 0 0
    simpa [Matrix.mul_apply, Fin.sum_univ_two, Matrix.transpose_apply,
      Matrix.one_apply] using this
  have e2 : Q 0 0 * Q 0 1 + Q 1 0 * Q 1 1 = 0 := by
    have := hent 0 1
    simpa [Matrix.mul_apply, Fin.sum_univ_two, Matrix.transpose_apply,
      Matrix.one_apply] using this
  have hdsq : Q.det * Q.det = 1 := by
    have hd := congrArg Matrix.det h
    rwa [Matrix.det_mul, Matrix.det_transpose, Matrix.det_one] at hd
  have hd1 : Q.det = 1 := by
    rcases mul_self_eq_one_iff.1 hdsq with h1 | h1
    · exact h1
    · linarith [hdet, h1.symm ▸ hdet]
  have hdet1 : Q 0 0 * Q 1 1 - Q 0 1 * Q 1 0 = 1 := by
    rw [← Matrix.det_fin_two Q]
    exact hd1
  constructor
  · linear_combination (-(Q 1 1)) * e1 + Q 1 0 * e2 + Q 0 0 * hdet1
  · linear_combination (-(Q 0 1)) * e1 + Q 0 0 * e2 + (-(Q 1 0)) * hdet1

theorem calculate_transform_rst (svd : Matrix (Fin 2) (Fin 2) ℝ → SVDResult)
    (links : List Link) (weights : Option (List (String × ℝ)))
    (rotate scale : Option ℝ) (hne : links.length ≠ 0)
    (hw : weightsLenOk links weights = true)
    (hbr : links.length = 1 ∨ rotate.isSome) :
    calculate_transform svd links weights rotate scale
      = .ok (rstBranch links weights rotate scale) := by
  unfold calculate_transform
  rw [if_neg hne, if_neg (not_not_intro hw), if_pos hbr]

theorem calculate_transform_svdBranch (svd : Matrix (Fin 2) (Fin 2) ℝ → SVDResult)
    (links : List Link) (weights : Option (List (String × ℝ))) (s : ℝ)
    (hne : links.length ≠ 0) (hw : weightsLenOk links weights = true)
    (h1 : links.length ≠ 1) :
    calculate_transform svd links weights none (some s)
      = svdBranch svd links weights s := by
  unfold calculate_transform
  rw [if_neg hne, if_neg (not_not_intro hw), if_neg (by simp [h1])]

theorem calculate_transform_conformal (svd : Matrix (Fin 2) (Fin 2) ℝ → SVDResult)
    (links : List Link) (weights : Option (List (String × ℝ)))
    (hne : links.length ≠ 0) (hw : weightsLenOk links weights = true)
    (h1 : links.length ≠ 1) :
    calculate_transform svd links weights none none
      = conformalBranch links weights := by
  unfold calculate_transform
  rw [if_neg hne, if_neg (not_not_intro hw), if_neg (by simp [h1])]

/-! ### Strategy-selection claim -/

/-- Claim C1: with a non-empty links list, the estimator picks exactly one of
the three strategies in priority order — single link or rotation given gives
the closed-form Rotate/Scale/Translate result (rotation defaulting to 0,
scale to 1, `a1 = cos·s`, `b1 = sin·s`, `t = centroid_dst - R·centroid_src`);
otherwise a given scale selects the Procrustes/SVD mode with that scale;
otherwise the Conformal least-squares mode — and the returned transform
carries the matching tag. -/
theorem claim1 (svd : Matrix (Fin 2) (Fin 2) ℝ → SVDResult) (links : List Link)
    (weights : Option (List (String × ℝ))) (rotate scale : Option ℝ)
    (hne : links ≠ []) (hw : weightsLenOk links weights = true) :
    ((links.length = 1 ∨ rotate ≠ none) →
        calculate_transform svd links weights rotate scale
          = .ok (⟨rotMatrix (rotate.getD 0) (scale.getD 1),
                  centroid (weightVec links weights) (dstPt links)
                    - (rotMatrix (rotate.getD 0) (scale.getD 1)).mulVec
                        (centroid (weightVec links weights) (srcPt links))⟩,
                 "Rotate/Scale/Translate")
          ∧ rotMatrix (rotate.getD 0) (scale.getD 1) 0 0
              = Real.cos (radians (rotate.getD 0)) * scale.getD 1
          ∧ rotMatrix (rotate.getD 0) (scale.getD 1) 1 0
              = Real.sin (radians (rotate.getD 0)) * scale.getD 1)
  ∧ (links.length ≠ 1 → rotate = none → ∀ s : ℝ, scale = some s →
        calculate_transform svd links weights rotate scale
            = svdBranch svd links weights s
          ∧ ∀ T tag, svdBranch svd links weights s = .ok (T, tag) → tag = "SVD")
  ∧ (links.length ≠ 1 → rotate = none → scale = none →
        calculate_transform svd links weights rotate scale
            = conformalBranch links weights
          ∧ ∀ T tag, conformalBranch links weights = .ok (T, tag) → tag = "Conformal") := by
  have hlen0 : links.length ≠ 0 := fun h => hne (List.length_eq_zero.1 h)
  refine ⟨?_, ?_, ?_⟩
  · intro hbr
    have hbr' : links.length = 1 ∨ rotate.isSome := by
      rcases hbr with h | h
      · exact Or.inl h
      · exact Or.inr (Option.ne_none_iff_isSome.1 h)
    exact ⟨calculate_transform_rst svd links weights rotate scale hlen0 hw hbr', rfl, rfl⟩
  · rintro h1 rfl s rfl
    refine ⟨calculate_transform_svdBranch svd links weights s hlen0 hw h1, ?_⟩
    intro T tag h
    simp only [svdBranch] at h
    split at h
    · exact Except.noConfusion h
    · simp only [Except.ok.injEq, Prod.mk.injEq] at h
      exact h.2.symm
  · rintro h1 rfl rfl
    refine ⟨calculate_transform_conformal svd links weights hlen0 hw h1, ?_⟩
    intro T tag h
    simp only [conformalBranch] at h
    split at h
    · simp only [Except.ok.injEq, Prod.mk.injEq] at h
      exact h.2.symm
    · exact Except.noConfusion h

theorem claim1_witness :
    (([⟨"A", ![0, 0], ![2, 3]⟩] : List Link) ≠ []
        ∧ weightsLenOk [⟨"A", ![0, 0], ![2, 3]⟩] none = true)
  ∧ calculate_transform (fun _ => ⟨1, ![1, 1], 1⟩) [⟨"A", ![0, 0], ![2, 3]⟩]
        none none none
      = .ok (⟨rotMatrix ((none : Option ℝ).getD 0) ((none : Option ℝ).getD 1),
              centroid (weightVec [⟨"A", ![0, 0], ![2, 3]⟩] none)
                  (dstPt [⟨"A", ![0, 0], ![2, 3]⟩])
                - (rotMatrix ((none : Option ℝ).getD 0)
                      ((none : Option ℝ).getD 1)).mulVec
                    (centroid (weightVec [⟨"A", ![0, 0], ![2, 3]⟩] none)
                      (srcPt [⟨"A", ![0, 0], ![2, 3]⟩]))⟩,
             "Rotate/Scale/Translate") := by
  have hne : ([⟨"A", ![0, 0], ![2, 3]⟩] : List Link) ≠ [] := by simp
  have h := claim1 (fun _ => ⟨1, ![1, 1], 1⟩) [⟨"A", ![0, 0], ![2, 3]⟩]
    none none none hne rfl
  exact ⟨⟨hne, rfl⟩, (h.1 (Or.inl rfl)).1⟩

/-! ### Reflection-detection claim -/

/-- Claim C3: in the scale-given, rotation-not-given, multi-link case, whenever
the Procrustes rotation `Vᵗᵀ·Uᵀ` obtained from the SVD of the weighted
cross-covariance has negative determinant, the estimator fails with
`MirroredTransformError` and never returns a (flipped) transform. -/
theorem claim3 (svd : Matrix (Fin 2) (Fin 2) ℝ → SVDResult) (links : List Link)
    (weights : Option (List (String × ℝ))) (s : ℝ)
    (h2 : 2 ≤ links.length) (hw : weightsLenOk links weights = true)
    (_hsvd : IsSVD (crossCov links weights) (svd (crossCov links weights)))
    (hdet : ((svd (crossCov links weights)).Vt.transpose
              * (svd (crossCov links weights)).U.transpose).det < 0) :
    calculate_transform svd links weights none (some s)
        = .error .mirroredTransformError
      ∧ ∀ T tag, calculate_transform svd links weights none (some s) ≠ .ok (T, tag) := by
  have hne : links.length ≠ 0 := by omega
  have h1 : links.length ≠ 1 := by omega
  have hb := calculate_transform_svdBranch svd links weights s hne hw h1
  have herr : svdBranch svd links weights s = .error .mirroredTransformError := by
    simp only [svdBranch]
    rw [if_pos hdet]
  rw [hb, herr]
  exact ⟨rfl, fun T tag h => Except.noConfusion h⟩

theorem claim3_witness :
    IsSVD (crossCov [⟨"A", ![-1, 0], ![-1, 0]⟩, ⟨"B", ![1, 0], ![1, 0]⟩,
                     ⟨"C", ![0, -1], ![0, 1]⟩, ⟨"D", ![0, 1], ![0, -1]⟩] none)
        ⟨1, ![2, 2], !![1, 0; 0, -1]⟩
  ∧ ((!![1, 0; 0, -1] : Matrix (Fin 2) (Fin 2) ℝ).transpose
      * (1 : Matrix (Fin 2) (Fin 2) ℝ).transpose).det < 0
  ∧ calculate_transform (fun _ => ⟨1, ![2, 2], !![1, 0; 0, -1]⟩)
      [⟨"A", ![-1, 0], ![-1, 0]⟩, ⟨"B", ![1, 0], ![1, 0]⟩,
       ⟨"C", ![0, -1], ![0, 1]⟩, ⟨"D", ![0, 1], ![0, -1]⟩] none none (some 1)
      = .error .mirroredTransformError := by
  have hH : crossCov [⟨"A", ![-1, 0], ![-1, 0]⟩, ⟨"B", ![1, 0], ![1, 0]⟩,
      ⟨"C", ![0, -1], ![0, 1]⟩, ⟨"D", ![0, 1], ![0, -1]⟩] none
      = !![2, 0; 0, -2] := by
    ext a b
    fin_cases a <;> fin_cases b <;>
      simp [crossCov, centroid, srcPt, dstPt, weightVec, Fin.sum_univ_four,
        show ((0 : Fin 4) : ℕ) = 0 from rfl, show ((1 : Fin 4) : ℕ) = 1 from rfl,
        show ((2 : Fin 4) : ℕ) = 2 from rfl, show ((3 : Fin 4) : ℕ) = 3 from rfl,
        List.getElem_cons_zero, List.getElem_cons_succ] <;> norm_num
  have hsvd : IsSVD (crossCov [⟨"A", ![-1, 0], ![-1, 0]⟩, ⟨"B", ![1, 0], ![1, 0]⟩,
      ⟨"C", ![0, -1], ![0, 1]⟩, ⟨"D", ![0, 1], ![0, -1]⟩] none)
      ⟨1, ![2, 2], !![1, 0; 0, -1]⟩ := by
    refine ⟨by simp, ?_, ?_, ?_⟩
    · ext i j
      fin_cases i <;> fin_cases j <;>
        simp [Matrix.mul_apply, Fin.sum_univ_two, Matrix.transpose_apply,
          Matrix.one_apply, Matrix.vecHead, Matrix.vecTail]
    · intro i
      fin_cases i <;> norm_num
    · rw [hH]
      ext i j
      fin_cases i <;> fin_cases j <;>
        simp [Matrix.mul_apply, Fin.sum_univ_two, Matrix.diagonal,
          Matrix.one_apply, Matrix.vecHead, Matrix.vecTail]
  have hdet : ((!![1, 0; 0, -1] : Matrix (Fin 2) (Fin 2) ℝ).transpose
      * (1 : Matrix (Fin 2) (Fin 2) ℝ).transpose).det < 0 := by
    rw [Matrix.transpose_one, Matrix.mul_one]
    rw [Matrix.det_fin_two]
    norm_num [Matrix.transpose_apply]
  exact ⟨hsvd, hdet,
    (claim3 (fun _ => ⟨1, ![2, 2], !![1, 0; 0, -1]⟩) _ none 1 (by simp) rfl hsvd hdet).1⟩

/-! ### Similarity-structure invariant claim -/

/-- Claim C4: every transform produced by `calculate_transform` — including the
SVD branch, where the proper orthogonal Procrustes factor scaled by the given
scale keeps the structure — and every transform rebuilt by `load` satisfies
`R[0][0] = R[1][1]` and `R[0][1] = -R[1][0]`, i.e. it is a similarity matrix. -/
theorem claim4 :
    (∀ (svd : Matrix (Fin 2) (Fin 2) ℝ → SVDResult) (links : List Link)
        (weights : Option (List (String × ℝ))) (rotate scale : Option ℝ)
        (T : Transform) (tag : String),
      (rotate = none → scale ≠ none → links.length ≠ 1 →
        IsSVD (crossCov links weights) (svd (crossCov links weights))) →
      calculate_transform svd links weights rotate scale = .ok (T, tag) →
      similarityStructured T.R)
  ∧ (∀ (f : SavedFile) (T : Transform),
      Transform.load f = .ok T → similarityStructured T.R) := by
  constructor
  · intro svd links weights rotate scale T tag hsvd hok
    by_cases h0 : links.length = 0
    · unfold calculate_transform at hok
      rw [if_pos h0] at hok
      exact Except.noConfusion hok
    by_cases hwl : weightsLenOk links weights = true
    · by_cases hbr : links.length = 1 ∨ rotate.isSome
      · rw [calculate_transform_rst svd links weights rotate scale h0 hwl hbr,
          Except.ok.injEq] at hok
        have hT : (rstBranch links weights rotate scale).1 = T := congrArg Prod.fst hok
        rw [← hT]
        exact simMatrix_structured _ _
      · push_neg at hbr
        obtain ⟨h1, hro⟩ := hbr
        have hrn : rotate = none := Option.not_isSome_iff_eq_none.1 hro
        subst hrn
        cases scale with
        | some s =>
            rw [calculate_transform_svdBranch svd links weights s h0 hwl h1] at hok
            have hsvd' := hsvd rfl (by simp) h1
            obtain ⟨hU, hV, -, -⟩ := hsvd'
            simp only [svdBranch] at hok
            set Rot := (svd (crossCov links weights)).Vt.transpose
                * (svd (crossCov links weights)).U.transpose with hRot
            split at hok
            · exact Except.noConfusion hok
            · rename_i hdet
              rw [Except.ok.injEq, Prod.mk.injEq] at hok
              obtain ⟨hT, -⟩ := hok
              rw [← hT]
              have horth : Rot.transpose * Rot = 1 := by
                rw [hRot, Matrix.transpose_mul, Matrix.transpose_transpose,
                  Matrix.transpose_transpose, Matrix.mul_assoc,
                  ← Matrix.mul_assoc (svd (crossCov links weights)).Vt, hV,
                  Matrix.one_mul, Matrix.mul_eq_one_comm.1 hU]
              obtain ⟨hs1, hs2⟩ := orth2_structured Rot horth (not_lt.1 hdet)
              refine ⟨?_, ?_⟩
              · show s * Rot 1 1 = s * Rot 0 0
                rw [hs1]
              · show s * Rot 0 1 = -(s * Rot 1 0)
                rw [hs2]
                ring
        | none =>
            rw [calculate_transform_conformal svd links weights h0 hwl h1] at hok
            simp only [conformalBranch] at hok
            split at hok
            · rw [Except.ok.injEq, Prod.mk.injEq] at hok
              obtain ⟨hT, -⟩ := hok
              rw [← hT]
              exact simMatrix_structured _ _
            · exact Except.noConfusion hok
    · unfold calculate_transform at hok
      rw [if_neg h0, if_pos hwl] at hok
      exact Except.noConfusion hok
  · intro f T h
    unfold Transform.load at h
    split at h
    · rw [Except.ok.injEq] at h
      rw [← h]
      exact simMatrix_structured _ _
    · exact Except.noConfusion h

/-! ### The conformal least-squares solution -/

theorem forward_apply (xfm : Transform) (p : Fin 2 → ℝ) (a : Fin 2) :
    xfm.forward p a = xfm.t a + (xfm.R a 0 * p 0 + xfm.R a 1 * p 1) := by
  simp [Transform.forward, Matrix.mulVec, Matrix.dotProduct, Fin.sum_univ_two]

theorem designA_mulVec_even (links : List Link) (x : Fin 4 → ℝ) (k : Fin links.length) :
    ((designA links).mulVec x) (pairIdx links.length (k, 0))
      = x 0 + (srcPt links k 0 * x 2 - srcPt links k 1 * x 3) := by
  show ∑ j, designA links (pairIdx links.length (k, 0)) j * x j = _
  rw [Fin.sum_univ_four]
  simp only [designA_apply_even, Matrix.cons_val_zero, Matrix.cons_val_one,
    Matrix.cons_val_succ, Matrix.head_cons, Matrix.cons_val_two, Matrix.cons_val_three,
    Matrix.vecHead, Matrix.vecTail, Function.comp_apply]
  ring

theorem designA_mulVec_odd (links : List Link) (x : Fin 4 → ℝ) (k : Fin links.length) :
    ((designA links).mulVec x) (pairIdx links.length (k, 1))
      = x 1 + (srcPt links k 1 * x 2 + srcPt links k 0 * x 3) := by
  show ∑ j, designA links (pairIdx links.length (k, 1)) j * x j = _
  rw [Fin.sum_univ_four]
  simp only [designA_apply_odd, Matrix.cons_val_zero, Matrix.cons_val_one,
    Matrix.cons_val_succ, Matrix.head_cons, Matrix.cons_val_two, Matrix.cons_val_three,
    Matrix.vecHead, Matrix.vecTail, Function.comp_apply]
  ring

theorem AtW_mulVec_apply (links : List Link) (weights : Option (List (String × ℝ)))
    (u : Fin (2 * links.length) → ℝ) (a : Fin 4) :
    (((designA links).transpose * weightDiag links weights).mulVec u) a
      = ∑ i, designA links i a * (weightVec links weights (halfIdx i) * u i) := by
  rw [← Matrix.mulVec_mulVec]
  show ∑ i, (designA links).transpose a i * ((weightDiag links weights).mulVec u) i = _
  refine Finset.sum_congr rfl fun i _ => ?_
  simp only [weightDiag]
  rw [Matrix.mulVec_diagonal, Matrix.transpose_apply]

theorem normalMat_mulVec_apply (links : List Link)
    (weights : Option (List (String × ℝ))) (y : Fin 4 → ℝ) (a : Fin 4) :
    ((normalMat links weights).mulVec y) a
      = ∑ i, designA links i a
          * (weightVec links weights (halfIdx i) * ((designA links).mulVec y) i) := by
  have h : (normalMat links weights).mulVec y
      = ((designA links).transpose * weightDiag links weights).mulVec
          ((designA links).mulVec y) := by
    rw [Matrix.mulVec_mulVec]
    rfl
  rw [h, AtW_mulVec_apply]

theorem conformalX_normal (links : List Link) (weights : Option (List (String × ℝ)))
    (hdet : (normalMat links weights).det ≠ 0) :
    (normalMat links weights).mulVec (conformalX links weights)
      = ((designA links).transpose * weightDiag links weights).mulVec (obsVec links) := by
  unfold conformalX
  rw [Matrix.mulVec_mulVec, Matrix.mul_nonsing_inv _ (isUnit_iff_ne_zero.2 hdet),
    Matrix.one_mulVec]

theorem conformal_rows (links : List Link) (weights : Option (List (String × ℝ)))
    (hdet : (normalMat links weights).det ≠ 0) (a : Fin 4) :
    ∑ i, designA links i a
        * (weightVec links weights (halfIdx i)
            * (((designA links).mulVec (conformalX links weights)) i - obsVec links i))
      = 0 := by
  have h := congrFun (conformalX_normal links weights hdet) a
  rw [normalMat_mulVec_apply, AtW_mulVec_apply] at h
  have h' : ∑ i, (designA links i a
        * (weightVec links weights (halfIdx i)
            * ((designA links).mulVec (conformalX links weights)) i)
      - designA links i a * (weightVec links weights (halfIdx i) * obsVec links i)) = 0 := by
    rw [Finset.sum_sub_distrib, h, sub_self]
  rw [← h']
  refine Finset.sum_congr rfl fun i _ => ?_
  ring

/-- The x-solution solves the normal equations, so in the Conformal branch the
weighted sum of the residuals of each coordinate vanishes (rows 0 and 1 of the
normal system). -/
theorem conformal_residual_sums (links : List Link)
    (weights : Option (List (String × ℝ)))
    (hdet : (normalMat links weights).det ≠ 0) :
    (∑ k, weightVec links weights k
        * ((conformalX links weights 0
              + (srcPt links k 0 * conformalX links weights 2
                  - srcPt links k 1 * conformalX links weights 3))
            - dstPt links k 0) = 0)
  ∧ (∑ k, weightVec links weights k
        * ((conformalX links weights 1
              + (srcPt links k 1 * conformalX links weights 2
                  + srcPt links k 0 * conformalX links weights 3))
            - dstPt links k 1) = 0) := by
  constructor
  · have h := conformal_rows links weights hdet 0
    rw [sum_fin_two_mul] at h
    rw [← h]
    refine Finset.sum_congr rfl fun k _ => ?_
    rw [designA_apply_even, designA_apply_odd, designA_mulVec_even,
      halfIdx_pairIdx, halfIdx_pairIdx, obsVec_even]
    simp only [Matrix.cons_val_zero]
    ring
  · have h := conformal_rows links weights hdet 1
    rw [sum_fin_two_mul] at h
    rw [← h]
    refine Finset.sum_congr rfl fun k _ => ?_
    rw [designA_apply_even, designA_apply_odd, designA_mulVec_odd,
      halfIdx_pairIdx, halfIdx_pairIdx, obsVec_odd]
    simp only [Matrix.cons_val_zero, Matrix.cons_val_one, Matrix.head_cons]
    ring

theorem simMatrix_apply00 (a b : ℝ) : simMatrix a b 0 0 = a := rfl

theorem simMatrix_apply01 (a b : ℝ) : simMatrix a b 0 1 = -b := rfl

theorem simMatrix_apply10 (a b : ℝ) : simMatrix a b 1 0 = b := rfl

theorem simMatrix_apply11 (a b : ℝ) : simMatrix a b 1 1 = a := rfl

/-- A transform whose translation is `cd - R·cs` maps `cs` to `cd` — the
closed-form centroid property of the first two branches. -/
theorem mk_sub_forward (R : Matrix (Fin 2) (Fin 2) ℝ) (cs cd : Fin 2 → ℝ) :
    (Transform.mk R (cd - R.mulVec cs)).forward cs = cd := by
  show (cd - R.mulVec cs) + R.mulVec cs = cd
  exact sub_add_cancel _ _

/-! ### Centroid-preservation claim -/

/-- Claim C10: every successful `calculate_transform` result maps the weighted
source centroid exactly to the weighted destination centroid — immediately
from `t = centroid_dst - R·centroid_src` in the first two strategies, and via
the intercept rows of the normal equations in the Conformal strategy. -/
theorem claim10 (svd : Matrix (Fin 2) (Fin 2) ℝ → SVDResult) (links : List Link)
    (weights : Option (List (String × ℝ))) (rotate scale : Option ℝ)
    (T : Transform) (tag : String) (hne : links ≠ [])
    (hpos : ∀ ws, weights = some ws → ∀ p ∈ ws, 0 < p.2)
    (hok : calculate_transform svd links weights rotate scale = .ok (T, tag)) :
    T.forward (centroid (weightVec links weights) (srcPt links))
      = centroid (weightVec links weights) (dstPt links) := by
  have h0 : links.length ≠ 0 := fun h => hne (List.length_eq_zero.1 h)
  by_cases hwl : weightsLenOk links weights = true
  swap
  · unfold calculate_transform at hok
    rw [if_neg h0, if_pos hwl] at hok
    exact Except.noConfusion hok
  by_cases hbr : links.length = 1 ∨ rotate.isSome
  · rw [calculate_transform_rst svd links weights rotate scale h0 hwl hbr,
      Except.ok.injEq] at hok
    have hT : (rstBranch links weights rotate scale).1 = T := congrArg Prod.fst hok
    rw [← hT]
    exact mk_sub_forward _ _ _
  · push_neg at hbr
    obtain ⟨h1, hro⟩ := hbr
    have hrn : rotate = none := Option.not_isSome_iff_eq_none.1 hro
    subst hrn
    cases scale with
    | some s =>
        rw [calculate_transform_svdBranch svd links weights s h0 hwl h1] at hok
        simp only [svdBranch] at hok
        split at hok
        · exact Except.noConfusion hok
        · rw [Except.ok.injEq, Prod.mk.injEq] at hok
          obtain ⟨hT, -⟩ := hok
          rw [← hT]
          exact mk_sub_forward _ _ _
    | none =>
        rw [calculate_transform_conformal svd links weights h0 hwl h1] at hok
        simp only [conformalBranch] at hok
        split at hok
        · rename_i hdet
          rw [Except.ok.injEq, Prod.mk.injEq] at hok
          obtain ⟨hT, -⟩ := hok
          rw [← hT]
          have hS : (0 : ℝ) < ∑ k, weightVec links weights k :=
            weightSum_pos links weights hne hwl hpos
          have hSne : (∑ k, weightVec links weights k) ≠ 0 := ne_of_gt hS
          obtain ⟨hr0, hr1⟩ := conformal_residual_sums links weights hdet
          have hkey0 : (∑ k, weightVec links weights k) * conformalX links weights 0
              + (∑ k, weightVec links weights k * srcPt links k 0)
                  * conformalX links weights 2
              - (∑ k, weightVec links weights k * srcPt links k 1)
                  * conformalX links weights 3
              - (∑ k, weightVec links weights k * dstPt links k 0) = 0 := by
            rw [← hr0, Finset.sum_mul, Finset.sum_mul, Finset.sum_mul,
              ← Finset.sum_add_distrib, ← Finset.sum_sub_distrib,
              ← Finset.sum_sub_distrib]
            exact Finset.sum_congr rfl fun k _ => by ring
          have hkey1 : (∑ k, weightVec links weights k) * conformalX links weights 1
              + (∑ k, weightVec links weights k * srcPt links k 1)
                  * conformalX links weights 2
              + (∑ k, weightVec links weights k * srcPt links k 0)
                  * conformalX links weights 3
              - (∑ k, weightVec links weights k * dstPt links k 1) = 0 := by
            rw [← hr1, Finset.sum_mul, Finset.sum_mul, Finset.sum_mul,
              ← Finset.sum_add_distrib, ← Finset.sum_add_distrib,
              ← Finset.sum_sub_distrib]
            exact Finset.sum_congr rfl fun k _ => by ring
          funext a
          fin_cases a
          · rw [forward_apply]
            dsimp only
            simp only [Fin.zero_eta, Fin.mk_one, simMatrix_apply00, simMatrix_apply01,
              Matrix.cons_val_zero, centroid]
            field_simp
            linear_combination hkey0
          · rw [forward_apply]
            dsimp only
            simp only [Fin.zero_eta, Fin.mk_one, simMatrix_apply10, simMatrix_apply11,
              Matrix.cons_val_one, Matrix.head_cons, centroid]
            field_simp
            linear_combination hkey1
        · exact Except.noConfusion hok

theorem claim10_witness :
    ∃ T tag,
      calculate_transform (fun _ => ⟨1, ![1, 1], 1⟩) [⟨"A", ![0, 0], ![5, 7]⟩]
          none none none = .ok (T, tag)
        ∧ T.forward (centroid (weightVec [⟨"A", ![0, 0], ![5, 7]⟩] none)
              (srcPt [⟨"A", ![0, 0], ![5, 7]⟩]))
          = centroid (weightVec [⟨"A", ![0, 0], ![5, 7]⟩] none)
              (dstPt [⟨"A", ![0, 0], ![5, 7]⟩]) := by
  refine ⟨(rstBranch [⟨"A", ![0, 0], ![5, 7]⟩] none none none).1,
    (rstBranch [⟨"A", ![0, 0], ![5, 7]⟩] none none none).2, rfl, ?_⟩
  exact claim10 (fun _ => ⟨1, ![1, 1], 1⟩) [⟨"A", ![0, 0], ![5, 7]⟩] none none none
    _ _ (by simp) (fun _ h => Option.noConfusion h) rfl

/-! ### Conformal exact-recovery claim -/

/-- Claim C2: when the targets are exactly the forward images of the sources
under a similarity transform `T0`, with two or more links, positive weights and
an invertible normal matrix, the Conformal branch recovers exactly `T0`'s four
parameters in one normal-equations step, and all residuals and the RMS error
are zero. -/
theorem claim2 (svd : Matrix (Fin 2) (Fin 2) ℝ → SVDResult) (T0 : Transform)
    (links : List Link) (ws : List (String × ℝ))
    (h2 : 2 ≤ links.length) (hlen : ws.length = links.length)
    (_hpos : ∀ p ∈ ws, 0 < p.2) (hsim : similarityStructured T0.R)
    (hfit : ∀ l ∈ links, l.dst = T0.forward l.src)
    (hdet : (normalMat links (some ws)).det ≠ 0) :
    calculate_transform svd links (some ws) none none = .ok (T0, "Conformal")
      ∧ (calculate_errors T0 links).1 = links.map (fun l => (l.name, 0))
      ∧ (calculate_errors T0 links).2 = 0 := by
  have h0 : links.length ≠ 0 := by omega
  have h1 : links.length ≠ 1 := by omega
  have hwl : weightsLenOk links (some ws) = true := by
    simp [weightsLenOk, hlen]
  have hb : (designA links).mulVec ![T0.t 0, T0.t 1, T0.R 0 0, T0.R 1 0]
      = obsVec links := by
    funext i
    obtain ⟨⟨k, r⟩, rfl⟩ := (pairIdx links.length).surjective i
    have hmem : links.get k ∈ links := List.get_mem links k.1 k.2
    have hdk : (links.get k).dst = T0.forward (links.get k).src := hfit _ hmem
    fin_cases r
    · simp only [Fin.zero_eta, Fin.mk_one]
      rw [designA_mulVec_even, obsVec_even]
      show _ = (links.get k).dst 0
      rw [hdk, forward_apply, hsim.2]
      simp only [Matrix.cons_val_zero, Matrix.cons_val_one, Matrix.cons_val_succ,
        Matrix.head_cons, Matrix.cons_val_two, Matrix.cons_val_three,
        Matrix.vecHead, Matrix.vecTail, Function.comp_apply]
      show T0.t 0 + (_ * T0.R 0 0 - _ * T0.R 1 0) = _
      simp only [srcPt]
      ring
    · simp only [Fin.zero_eta, Fin.mk_one]
      rw [designA_mulVec_odd, obsVec_odd]
      show _ = (links.get k).dst 1
      rw [hdk, forward_apply, hsim.1]
      simp only [Matrix.cons_val_zero, Matrix.cons_val_one, Matrix.cons_val_succ,
        Matrix.head_cons, Matrix.cons_val_two, Matrix.cons_val_three,
        Matrix.vecHead, Matrix.vecTail, Function.comp_apply]
      show T0.t 1 + (_ * T0.R 0 0 + _ * T0.R 1 0) = _
      simp only [srcPt]
      ring
  have hx : conformalX links (some ws) = ![T0.t 0, T0.t 1, T0.R 0 0, T0.R 1 0] := by
    have h' : ((designA links).transpose * weightDiag links (some ws)).mulVec
          (obsVec links)
        = (normalMat links (some ws)).mulVec
            ![T0.t 0, T0.t 1, T0.R 0 0, T0.R 1 0] := by
      rw [← hb, Matrix.mulVec_mulVec]
      rfl
    unfold conformalX
    rw [h', Matrix.mulVec_mulVec,
      Matrix.nonsing_inv_mul _ (isUnit_iff_ne_zero.2 hdet), Matrix.one_mulVec]
  have hcf : conformalBranch links (some ws) = .ok (T0, "Conformal") := by
    unfold conformalBranch
    rw [if_pos hdet, hx]
    have hR : simMatrix (![T0.t 0, T0.t 1, T0.R 0 0, T0.R 1 0] 2)
        (![T0.t 0, T0.t 1, T0.R 0 0, T0.R 1 0] 3) = T0.R := by
      ext i j
      fin_cases i <;> fin_cases j <;>
        simp [simMatrix, hsim.1, hsim.2, Matrix.cons_val_zero, Matrix.cons_val_one,
          Matrix.cons_val_succ, Matrix.head_cons, Matrix.cons_val_two,
          Matrix.cons_val_three, Matrix.vecHead, Matrix.vecTail]
    have ht : ![![T0.t 0, T0.t 1, T0.R 0 0, T0.R 1 0] 0,
        ![T0.t 0, T0.t 1, T0.R 0 0, T0.R 1 0] 1] = T0.t := by
      funext i
      fin_cases i <;> rfl
    rw [hR, ht]
  have herr : ∀ l ∈ links, linkError T0 l = 0 := by
    intro l hl
    unfold linkError
    rw [hfit l hl]
    simp
  refine ⟨?_, ?_, ?_⟩
  · rw [calculate_transform_conformal svd links (some ws) h0 hwl h1, hcf]
  · simp only [calculate_errors]
    rw [List.zip_map']
    exact List.map_congr_left fun l hl => by rw [herr l hl]
  · show Real.sqrt ((((links.map (linkError T0)).map fun e => e ^ 2).sum)
        / (links.map (linkError T0)).length) = 0
    have hsum : (((links.map (linkError T0)).map fun e => e ^ 2).sum) = 0 := by
      apply List.sum_eq_zero
      intro y hy
      rw [List.map_map] at hy
      obtain ⟨l, hl, rfl⟩ := List.mem_map.1 hy
      simp only [Function.comp_apply]
      rw [herr l hl]
      norm_num
    rw [hsum, zero_div, Real.sqrt_zero]

theorem claim2_witness :
    (2 ≤ ([⟨"A", ![0, 0], ![1, 2]⟩, ⟨"B", ![1, 0], ![2, 2]⟩] : List Link).length)
  ∧ similarityStructured (Transform.mk 1 ![1, 2]).R
  ∧ (∀ l ∈ ([⟨"A", ![0, 0], ![1, 2]⟩, ⟨"B", ![1, 0], ![2, 2]⟩] : List Link),
       l.dst = (Transform.mk 1 ![1, 2]).forward l.src)
  ∧ (normalMat [⟨"A", ![0, 0], ![1, 2]⟩, ⟨"B", ![1, 0], ![2, 2]⟩]
        (some [("A", 1), ("B", 1)])).det ≠ 0
  ∧ calculate_transform (fun _ => ⟨1, ![1, 1], 1⟩)
        [⟨"A", ![0, 0], ![1, 2]⟩, ⟨"B", ![1, 0], ![2, 2]⟩]
        (some [("A", 1), ("B", 1)]) none none
      = .ok (Transform.mk 1 ![1, 2], "Conformal")
  ∧ (calculate_errors (Transform.mk 1 ![1, 2])
        [⟨"A", ![0, 0], ![1, 2]⟩, ⟨"B", ![1, 0], ![2, 2]⟩]).2 = 0 := by
  have hsim : similarityStructured (Transform.mk 1 ![1, 2]).R := by
    constructor <;> simp [Matrix.one_apply]
  have hfit : ∀ l ∈ ([⟨"A", ![0, 0], ![1, 2]⟩, ⟨"B", ![1, 0], ![2, 2]⟩] : List Link),
      l.dst = (Transform.mk 1 ![1, 2]).forward l.src := by
    intro l hl
    simp only [List.mem_cons, List.not_mem_nil, or_false] at hl
    rcases hl with h | h <;> subst h <;> funext a <;> fin_cases a <;>
      simp [Transform.forward, Matrix.one_mulVec] <;> norm_num
  have hN : normalMat [⟨"A", ![0, 0], ![1, 2]⟩, ⟨"B", ![1, 0], ![2, 2]⟩]
      (some [("A", 1), ("B", 1)])
      = !![2, 0, 1, 0; 0, 2, 0, 1; 1, 0, 1, 0; 0, 1, 0, 1] := by
    ext a b
    fin_cases a <;> fin_cases b <;>
      simp [normalMat, Matrix.mul_apply, weightDiag, Matrix.diagonal, designA,
        Matrix.of_apply, halfIdx, weightVec, srcPt, Fin.sum_univ_four,
        show ((0 : Fin 4) : ℕ) = 0 from rfl, show ((1 : Fin 4) : ℕ) = 1 from rfl,
        show ((2 : Fin 4) : ℕ) = 2 from rfl, show ((3 : Fin 4) : ℕ) = 3 from rfl,
        List.getElem_cons_zero, List.getElem_cons_succ,
        List.getD_cons_zero, List.getD_cons_succ] <;> norm_num
  have hdet : (normalMat [⟨"A", ![0, 0], ![1, 2]⟩, ⟨"B", ![1, 0], ![2, 2]⟩]
      (some [("A", 1), ("B", 1)])).det ≠ 0 := by
    rw [hN]
    norm_num [Matrix.det_succ_row_zero, Fin.sum_univ_succ, Fin.succAbove,
      Matrix.submatrix_apply, Fin.lt_def]
  have h := claim2 (fun _ => ⟨1, ![1, 1], 1⟩) (Transform.mk 1 ![1, 2])
    [⟨"A", ![0, 0], ![1, 2]⟩, ⟨"B", ![1, 0], ![2, 2]⟩] [("A", 1), ("B", 1)]
    (by norm_num) rfl
    (by
      intro p hp
      simp only [List.mem_cons, List.not_mem_nil, or_false] at hp
      rcases hp with h | h <;> subst h <;> norm_num)
    hsim hfit hdet
  exact ⟨by norm_num, hsim, hfit, hdet, h.1, h.2.2⟩

theorem claim4_witness :
    calculate_transform (fun _ => ⟨1, ![1, 1], 1⟩) [⟨"A", ![0, 0], ![3, 4]⟩]
        none none none
      = .ok (rstBranch [⟨"A", ![0, 0], ![3, 4]⟩] none none none)
  ∧ similarityStructured (rstBranch [⟨"A", ![0, 0], ![3, 4]⟩] none none none).1.R :=
  ⟨rfl, claim4.1 (fun _ => ⟨1, ![1, 1], 1⟩) [⟨"A", ![0, 0], ![3, 4]⟩]
    none none none _ _ (fun _ h _ => absurd rfl h) rfl⟩

end CoordTransform
